import Mathlib

/-
Verification development for the documentation-indexer engine of the
cc-devtools repository. The TypeScript sources under
src/documentation-indexer are shallow-embedded below: JS strings are
lists of characters, JS Map objects are insertion-ordered association
lists, JS numbers carrying scores are rationals, and the external
collaborators (embedding provider, cosine similarity, minimatch, the
msgpack codec and the advisory file lock) are parameters of the
embedded functions.
-/

set_option allowUnsafeReducibility true

attribute [local semireducible] Rat.add Rat.mul Rat.sub Rat.inv Rat.ofScientific

namespace CCDocIdx

/-- JS strings, modelled as lists of characters. -/
abbrev Str := List Char

/-- Embed a Lean string literal into the model representation. -/
def strOf (s : String) : Str := s.data

/-- Membership of a character in the JS regex class backslash-s (ASCII fragment:
space, tab, newline, carriage return, vertical tab, form feed). -/
def isWS (c : Char) : Bool :=
  c = ' ' || c = '\t' || c = '\n' || c = '\r' || c = Char.ofNat 11 || c = Char.ofNat 12

/-- JS String.prototype.trim. -/
def jsTrim (s : Str) : Str :=
  ((s.dropWhile isWS).reverse.dropWhile isWS).reverse

/-- JS String.prototype.toLowerCase on one character (ASCII fragment). -/
def lowerChar (c : Char) : Char :=
  if 'A' ≤ c ∧ c ≤ 'Z' then Char.ofNat (c.toNat + 32) else c

/-- JS String.prototype.toLowerCase (ASCII fragment). -/
def jsLower (s : Str) : Str := s.map lowerChar

/-- JS String.prototype.includes: substring containment test. -/
def jsIncludes (hay needle : Str) : Bool :=
  match hay with
  | [] => needle.isEmpty
  | c :: t => needle.isPrefixOf (c :: t) || jsIncludes t needle

/-- JS s.split(backslash-n): the lines of a string. -/
def jsLines (s : Str) : List Str := List.splitOn '\n' s

/-- Join a list of lines with newline characters, as JS Array.prototype.join. -/
def joinNl (ls : List Str) : Str := List.intercalate ['\n'] ls

/-- The line count of a string as computed by the source,
content.split(newline).length. -/
def numLines (s : Str) : Nat := (jsLines s).length

/-- Decimal rendering of a line number, as JS template interpolation of a
number renders it. -/
def natToStr (n : Nat) : Str := (Nat.repr n).data

/-- If the string starts a match of the blank-line regex (newline, then
whitespace run, then newline; the whitespace quantifier is greedy so the
match extends to the last newline of the whitespace run), return the suffix
after the match. -/
def blankLineMatch (s : Str) : Option Str :=
  match s with
  | [] => none
  | c :: rest =>
    if c = '\n' then
      let run := rest.takeWhile isWS
      let tailNoNl := (run.reverse.takeWhile (fun x => x ≠ '\n')).length
      if run.length = tailNoNl then none
      else some (rest.drop (run.length - tailNoNl))
    else none

/-- Worker for splitParagraphs: scan the string, cutting at every match of
the blank-line regex, accumulating the current part in reverse. Every step
consumes at least one character, so the explicit fuel, initialised to the
string length plus one, is never exhausted; the fuel keeps the recursion
structural. -/
def splitParagraphsGo : Nat → Str → Str → List Str
  | 0, s, cur => [cur.reverse ++ s]
  | fuel + 1, s, cur =>
    match blankLineMatch s with
    | some remainder => cur.reverse :: splitParagraphsGo fuel remainder []
    | none =>
      match s with
      | [] => [cur.reverse]
      | c :: rest => splitParagraphsGo fuel rest (c :: cur)

/-- JS content.split of the blank-line regex: blank-line-delimited
paragraphs of a chunk content. -/
def splitParagraphs (s : Str) : List Str := splitParagraphsGo (s.length + 1) s []

/-- Token estimate from parser.ts: ceil of character length over four. -/
def estimateTokenCount (s : Str) : Nat := (s.length + 3) / 4

/-- Chunk type tag from types.ts. -/
inductive ChunkType where
  | heading
  | paragraph
  | code
  | list
deriving DecidableEq, Repr

/-- Parse result from document parsing (types.ts ParsedChunk). -/
structure ParsedChunk where
  headings : List Str
  firstSentence : Str
  chunkType : ChunkType
  content : Str
  startLine : Nat
  endLine : Nat
deriving DecidableEq, Repr

/-- Fold one chunk into the merge accumulator (parser.ts lines 346 to 351):
concatenate contents with a blank line, extend the end line, keep the
accumulated first sentence unless it is empty (the JS or-else operator). -/
def foldIntoAccumulator (acc c : ParsedChunk) : ParsedChunk :=
  { acc with
    content := acc.content ++ strOf "\n\n" ++ c.content
    endLine := c.endLine
    firstSentence := if acc.firstSentence = [] then c.firstSentence else acc.firstSentence }

/-- Loop of mergeSmallChunks (parser.ts lines 331 to 367), with the mutable
accumulator made explicit. -/
def mergeGo (minTokens : Nat) : List ParsedChunk → Option ParsedChunk → List ParsedChunk
  | [], none => []
  | [], some acc => [acc]
  | c :: cs, none =>
    if estimateTokenCount c.content < minTokens then mergeGo minTokens cs (some c)
    else c :: mergeGo minTokens cs none
  | c :: cs, some acc =>
    if estimateTokenCount acc.content + estimateTokenCount c.content < minTokens then
      mergeGo minTokens cs (some (foldIntoAccumulator acc c))
    else
      acc :: (if estimateTokenCount c.content < minTokens then mergeGo minTokens cs (some c)
              else c :: mergeGo minTokens cs none)

/-- parser.ts mergeSmallChunks. -/
def mergeSmallChunks (chunks : List ParsedChunk) (minTokens : Nat) : List ParsedChunk :=
  mergeGo minTokens chunks none

/-- One output piece of a split chunk (parser.ts lines 398 to 404 and 416 to
423): spread of the original chunk with content and line span replaced. -/
def mkPiece (c : ParsedChunk) (content : Str) (startLine : Nat) : ParsedChunk :=
  { c with content := content, startLine := startLine,
           endLine := startLine + numLines content - 1 }

/-- Paragraph accumulation loop of splitLargeChunks (parser.ts lines 392 to
424) for one oversized chunk: state is the paragraph list still to process,
the current accumulated content, the start line of the current piece, and
the running line offset. -/
def splitGo (c : ParsedChunk) (maxTokens : Nat) :
    List Str → Str → Nat → Nat → List ParsedChunk
  | [], cur, curStart, _ =>
    if cur = [] then [] else [mkPiece c cur curStart]
  | p :: ps, cur, curStart, off =>
    let test := if cur = [] then p else cur ++ strOf "\n\n" ++ p
    if maxTokens < estimateTokenCount test ∧ cur ≠ [] then
      mkPiece c cur curStart :: splitGo c maxTokens ps p off (off + numLines p + 1)
    else
      splitGo c maxTokens ps test curStart (off + numLines p + 1)

/-- parser.ts splitLargeChunks. -/
def splitLargeChunks (chunks : List ParsedChunk) (maxTokens : Nat) : List ParsedChunk :=
  chunks.flatMap (fun c =>
    if estimateTokenCount c.content ≤ maxTokens then [c]
    else splitGo c maxTokens (splitParagraphs c.content) [] c.startLine c.startLine)

/-- The backtick character. -/
def backtick : Char := Char.ofNat 96

/-- A markdown code fence: three backticks. -/
def fence : Str := [backtick, backtick, backtick]

/-- Does a line match the markdown heading regex of parser.ts (one to six
hash characters, at least one whitespace character, at least one further
character up to the end of the line)? -/
def mdHeadingLine (l : Str) : Bool :=
  let hs := l.takeWhile (fun c => c = '#')
  1 ≤ hs.length && hs.length ≤ 6 &&
    (match l.drop hs.length with
     | [] => false
     | c :: t => isWS c && !t.isEmpty)

/-- Split a string at the first occurrence of a pattern: the part before the
match and the part after it. -/
def splitAtSub (pat : Str) : Str → Option (Str × Str)
  | [] => if pat.isEmpty then some ([], []) else none
  | c :: t =>
    if pat.isPrefixOf (c :: t) then some ([], (c :: t).drop pat.length)
    else
      match splitAtSub pat t with
      | some (bef, aft) => some (c :: bef, aft)
      | none => none

/-- Removal of fenced code blocks, the replace of the lazily paired
code-fence regex with the empty string in extractFirstSentence. Every
removal consumes at least the opening fence, so the fuel, initialised to
the string length plus one, is never exhausted. -/
def removeCodeBlocksGo : Nat → Str → Str
  | 0, s => s
  | fuel + 1, s =>
    match splitAtSub fence s with
    | none => s
    | some (bef, rest) =>
      match splitAtSub fence rest with
      | none => s
      | some (_, aft) => bef ++ removeCodeBlocksGo fuel aft

/-- The code-fence replace of extractFirstSentence. -/
def removeCodeBlocks (s : Str) : Str := removeCodeBlocksGo (s.length + 1) s

/-- Removal of inline code spans: backtick, one or more non-backtick
characters, backtick. Each step consumes at least one character, so the
fuel is never exhausted. -/
def removeInlineCodeGo : Nat → Str → Str
  | 0, s => s
  | fuel + 1, s =>
    match s with
    | [] => []
    | c :: t =>
      if c = backtick ∧ t.takeWhile (fun x => x ≠ backtick) ≠ [] ∧
          t.drop (t.takeWhile (fun x => x ≠ backtick)).length ≠ [] then
        removeInlineCodeGo fuel (t.drop ((t.takeWhile (fun x => x ≠ backtick)).length + 1))
      else c :: removeInlineCodeGo fuel t

/-- The inline-code replace of extractFirstSentence. -/
def removeInlineCode (s : Str) : Str := removeInlineCodeGo (s.length + 1) s

/-- List marker characters. -/
def listMarker (c : Char) : Bool := c = '-' || c = '*' || c = '+'

/-- Removal of list markers: the multiline anchored marker-and-whitespace
regex replaced with the empty string; the whitespace quantifier is greedy
and may span line breaks, and the position after a removal is a line start
exactly when the last removed character was a newline. Each step consumes
at least one character, so the fuel is never exhausted. -/
def removeListMarkersGo : Nat → Bool → Str → Str
  | 0, _, s => s
  | fuel + 1, atStart, s =>
    match s with
    | [] => []
    | c :: t =>
      if atStart ∧ listMarker c ∧ t.takeWhile isWS ≠ [] then
        removeListMarkersGo fuel ((t.takeWhile isWS).getLast? = some '\n')
          (t.drop (t.takeWhile isWS).length)
      else c :: removeListMarkersGo fuel (c = '\n') t

/-- The list-marker replace of extractFirstSentence. -/
def removeListMarkers (atStart : Bool) (s : Str) : Str :=
  removeListMarkersGo (s.length + 1) atStart s

/-- Sentence terminator characters. -/
def sentenceEnd (c : Char) : Bool := c = '.' || c = '!' || c = '?'

/-- The anchored lazy first-sentence regex: the shortest nonempty prefix,
free of newlines, that ends in a sentence terminator followed by a
whitespace character. -/
def sentenceScan (acc : Str) (s : Str) : Option Str :=
  match s with
  | [] => none
  | [_] => none
  | a :: b :: t =>
    if sentenceEnd a ∧ isWS b ∧ acc ≠ [] then some (acc ++ [a])
    else if a = '\n' then none
    else sentenceScan (acc ++ [a]) (b :: t)

/-- parser.ts extractFirstSentence: strip heading lines, fenced code blocks,
inline code and list markers, then match the first sentence, falling back to
the first line truncated to 100 characters. -/
def extractFirstSentence (content : Str) : Str :=
  let withoutHeadings :=
    jsTrim (joinNl ((jsLines content).map (fun l => if mdHeadingLine l then [] else l)))
  let withoutCode := removeCodeBlocks withoutHeadings
  let withoutInline := removeInlineCode withoutCode
  let withoutLists := removeListMarkers true withoutInline
  match sentenceScan [] withoutLists with
  | some sentence => sentence
  | none => (jsTrim ((jsLines withoutLists).headD [])).take 100

/-- Is there a line that starts with a list marker followed by whitespace
(the multiline list regex of detectChunkType)? -/
def hasListLineGo (atStart : Bool) (s : Str) : Bool :=
  match s with
  | [] => false
  | c :: t =>
    (atStart && listMarker c && (match t with | [] => false | b :: _ => isWS b)) ||
    hasListLineGo (c = '\n') t

/-- parser.ts detectChunkType. -/
def detectChunkType (content : Str) : ChunkType :=
  let hs := content.takeWhile (fun c => c = '#')
  let headWS : Bool := match content.drop hs.length with | [] => false | c :: _ => isWS c
  if 1 ≤ hs.length ∧ hs.length ≤ 6 ∧ headWS then
    ChunkType.heading
  else if (match splitAtSub fence content with
           | some (_, rest) => (splitAtSub fence rest).isSome
           | none => false) then
    ChunkType.code
  else if hasListLineGo true content then ChunkType.list
  else ChunkType.paragraph

/-- An entry of the heading stack kept by the parsers. -/
structure HeadingEntry where
  level : Nat
  text : Str
  line : Nat
deriving DecidableEq, Repr

/-- parser.ts createChunk: join and trim the accumulated lines, drop the
chunk when the content is empty, snapshot the heading stack. -/
def createChunk (ls : List Str) (startLine endLine : Nat)
    (headingStack : List HeadingEntry) : Option ParsedChunk :=
  let content := jsTrim (joinNl ls)
  if content = [] then none
  else some {
    headings := headingStack.map (fun h => h.text)
    firstSentence := extractFirstSentence content
    chunkType := detectChunkType content
    content := content
    startLine := startLine
    endLine := endLine }

/-- Ordered association-list lookup, modelling JS Map.prototype.get. -/
def assocGet {κ β : Type} [DecidableEq κ] (k : κ) : List (κ × β) → Option β
  | [] => none
  | (k2, v) :: t => if k2 = k then some v else assocGet k t

/-- The RST underline characters recognised by parser.ts. -/
def RST_HEADING_CHARS : List Char :=
  ['=', '-', backtick, ':', '.', Char.ofNat 39, Char.ofNat 34, '~', '^', '_', '*', '+', '#']

/-- Does a trimmed line consist of one repeated occurrence of a character
(the dynamically built anchored regex of parseRST)? -/
def isRepeatedChar (c : Char) (s : Str) : Bool := s ≠ [] && s.all (fun x => x = c)

/-- The full branch condition under which parseRST treats a line as a
heading, given the following line (parser.ts lines 32 and 36): the next line
is nonempty, starts with a recognised underline character, its trimmed
length is at least the trimmed length of the line, its trimmed text is one
repeated occurrence of that character, and the line itself has nonempty
trimmed text. -/
def rstIsHeading (line next : Str) : Bool :=
  next ≠ [] &&
  RST_HEADING_CHARS.contains (next.headD ' ') &&
  (jsTrim line).length ≤ (jsTrim next).length &&
  isRepeatedChar (next.headD ' ') (jsTrim next) &&
  0 < (jsTrim line).length

/-- Overline detection of parseRST (lines 38 and 39): the previous line is
nonempty, starts with the underline character, and its trimmed text is one
repeated occurrence of that character. -/
def rstHasOverline (prev : Str) (c : Char) : Bool :=
  prev ≠ [] && prev.headD ' ' = c && isRepeatedChar c (jsTrim prev)

/-- Heading level assignment of parseRST (lines 50 to 54): look the
underline character up in the discovery map; a new character is assigned
the current size of the map and appended. -/
def rstLevelAssign (m : List (Char × Nat)) (c : Char) : Nat × List (Char × Nat) :=
  match assocGet c m with
  | some l => (l, m)
  | none => (m.length, m ++ [(c, m.length)])

/-- Worker for popStack on the reversed stack: discard entries whose level
is at least the new level. -/
def popStackRev (level : Nat) : List HeadingEntry → List HeadingEntry
  | [] => []
  | top :: rest => if level ≤ top.level then popStackRev level rest else top :: rest

/-- Pop heading-stack entries whose level is at least the new level (the
stack top is the list end, matching JS array push and pop). -/
def popStack (level : Nat) (stack : List HeadingEntry) : List HeadingEntry :=
  (popStackRev level stack.reverse).reverse

/-- Main loop of parseRST. The source indexes the line array with a cursor
i, reading the current line, the next line and the previous line (the empty
string beyond either end); here the lines still to process are the list
rest, the previous line is carried as prev (initially empty), n is the
total line count, and the current chunk start, the accumulated current
chunk lines, the heading stack, the underline-character discovery map and
the finished chunks are explicit. A heading consumes two lines, anything
else one line; the single-line case cannot be a heading because the next
line is empty. -/
def parseRSTGo (n : Nat) (prev : Str) (rest : List Str) (i : Nat) (curStart : Nat)
    (curLines : List Str) (stack : List HeadingEntry) (charLevels : List (Char × Nat))
    (acc : List ParsedChunk) : List ParsedChunk :=
  match rest with
  | [] =>
    if curLines ≠ [] then
      match createChunk curLines curStart (n - 1) stack with
      | some ch => acc ++ [ch]
      | none => acc
    else acc
  | [line] =>
    parseRSTGo n line [] (i+1) curStart (curLines ++ [line]) stack charLevels acc
  | line :: next :: rest3 =>
    if rstIsHeading line next then
      let c := next.headD ' '
      let hasOver := rstHasOverline prev c
      let acc2 :=
        if curLines ≠ [] then
          match createChunk curLines curStart (i - 1 - (if hasOver then 1 else 0)) stack with
          | some ch => acc ++ [ch]
          | none => acc
        else acc
      let lv := rstLevelAssign charLevels c
      let stack2 := popStack lv.1 stack ++ [{ level := lv.1, text := jsTrim line, line := i }]
      parseRSTGo n next rest3 (i+2) (if hasOver then i - 1 else i)
        (if hasOver then [prev, line, next] else [line, next]) stack2 lv.2 acc2
    else
      parseRSTGo n line (next :: rest3) (i+1) curStart (curLines ++ [line]) stack charLevels acc

/-- parser.ts parseRST. -/
def parseRST (content : Str) : List ParsedChunk :=
  parseRSTGo (jsLines content).length [] (jsLines content) 0 0 [] [] [] []

/-- types.ts ChunkingConfig. -/
structure ChunkingConfig where
  minTokens : Nat
  maxTokens : Nat
  splitAtHeadings : Bool
deriving DecidableEq, Repr

/-- types.ts DEFAULT_CHUNKING_CONFIG. -/
def DEFAULT_CHUNKING_CONFIG : ChunkingConfig :=
  { minTokens := 200, maxTokens := 500, splitAtHeadings := true }

/-- Chunk assembly as applied by processFile in the scanner when
splitAtHeadings is set: the merge pass, then the split pass. -/
def assembleChunks (parsed : List ParsedChunk) (config : ChunkingConfig) : List ParsedChunk :=
  splitLargeChunks (mergeSmallChunks parsed config.minTokens) config.maxTokens

/-- Chunk identifiers as assigned by processFile in the scanner: file path,
colon, decimal start line. -/
def docChunkIds (file : Str) (chunks : List ParsedChunk) : List Str :=
  chunks.map (fun c => file ++ ':' :: natToStr c.startLine)

/-- Underline-character discovery map produced by feeding a sequence of
underline characters through rstLevelAssign, as the parseRST loop does. -/
def discoverLevels (cs : List Char) : List (Char × Nat) :=
  cs.foldl (fun m c => (rstLevelAssign m c).2) []

/-- The distinct characters of a sequence in order of first appearance. -/
def firstOccurrences (cs : List Char) : List Char :=
  cs.foldl (fun acc c => if acc.contains c then acc else acc ++ [c]) []

/-- Pair each element of a list with its position, starting at a given
offset. -/
def withIdx : Nat → List Char → List (Char × Nat)
  | _, [] => []
  | k, c :: t => (c, k) :: withIdx (k+1) t

/-- Optional size metadata of a chunk (types.ts DocChunk.metadata). -/
structure ChunkMeta where
  wordCount : Nat
  tokenCount : Nat
deriving DecidableEq, Repr

/-- types.ts DocChunk. -/
structure DocChunk where
  id : Str
  file : Str
  startLine : Nat
  endLine : Nat
  content : Str
  context : Str
  hierarchy : List Str
  chunkType : ChunkType
  metadata : Option ChunkMeta
deriving DecidableEq, Repr

/-- types.ts IndexMetadata. -/
structure IndexMetadata where
  version : Str
  indexedAt : Nat
  fileCount : Nat
  chunkCount : Nat
deriving DecidableEq, Repr

/-- types.ts DocIndex. The two JS Map objects are insertion-ordered
association lists; a Float32Array is the list of the exact values of its
entries (widening a 32-bit float to a 64-bit JS number and narrowing it
back are exact, so both conversions are the identity on the carried
values). -/
structure DocIndex where
  chunks : List (Str × List DocChunk)
  embeddings : List (Str × List ℚ)
  metadata : IndexMetadata
deriving DecidableEq, Repr

/-- storage.ts INDEX_VERSION. -/
def INDEX_VERSION : Str := strOf "1.0.0"

/-- storage.ts SerializedIndex: the payload written to disk. -/
structure SerializedIndex where
  version : Str
  indexedAt : Nat
  fileCount : Nat
  chunkCount : Nat
  chunks : List (Str × List DocChunk)
  embeddings : List (Str × List ℚ)
deriving DecidableEq, Repr

/-- The state of the persisted index file as seen by loadIndex: absent,
present but failing to read or decode (the catch branch), or present with a
decoded payload. The msgpack codec and the advisory lock are faithful
collaborators: a value packed by saveIndex unpacks to itself. -/
inductive StoredFile where
  | missing
  | corrupt
  | stored (s : SerializedIndex)
deriving DecidableEq, Repr

/-- storage.ts saveIndex, lines 24 to 38: the version field written is the
module constant INDEX_VERSION, not the version of the index being saved;
chunk and embedding maps are written entry by entry in order. -/
def saveIndex (idx : DocIndex) : StoredFile :=
  StoredFile.stored {
    version := INDEX_VERSION
    indexedAt := idx.metadata.indexedAt
    fileCount := idx.metadata.fileCount
    chunkCount := idx.metadata.chunkCount
    chunks := idx.chunks
    embeddings := idx.embeddings }

/-- storage.ts loadIndex, lines 40 to 70: no file and any read or decode
failure give null; a version other than INDEX_VERSION gives null; otherwise
the index is rebuilt from the payload. -/
def loadIndex : StoredFile → Option DocIndex
  | StoredFile.missing => none
  | StoredFile.corrupt => none
  | StoredFile.stored s =>
    if s.version = INDEX_VERSION then
      some {
        chunks := s.chunks
        embeddings := s.embeddings
        metadata := {
          version := s.version
          indexedAt := s.indexedAt
          fileCount := s.fileCount
          chunkCount := s.chunkCount } }
    else none

/-- types.ts SearchResult: spread of a DocChunk plus score and match
reason. -/
structure SearchResult where
  chunk : DocChunk
  score : ℚ
  match_reason : Str
deriving DecidableEq, Repr

/-- types.ts SearchFilters. The glob matcher (minimatch, an external
collaborator) is carried as an abstract predicate on file paths. -/
structure SearchFilters where
  filePattern : Option (Str → Bool)
  category : Option (List Str)
  minScore : Option ℚ

/-- search.ts matchesFilters. -/
def matchesFilters (chunk : DocChunk) (filters : Option SearchFilters) : Bool :=
  match filters with
  | none => true
  | some f =>
    (match f.filePattern with
     | some pat => pat chunk.file
     | none => true) &&
    (match f.category with
     | some cats =>
       cats.isEmpty || cats.any (fun cat => jsIncludes (jsLower chunk.context) (jsLower cat))
     | none => true)

/-- context-generator.ts generateSearchableText: context, hierarchy and
content joined with spaces, lower-cased. -/
def generateSearchableText (c : DocChunk) : Str :=
  jsLower (List.intercalate [' '] ([c.context] ++ c.hierarchy ++ [c.content]))

/-- The per-chunk scoring of keywordSearch (search.ts lines 55 to 69): the
three tiers tried in order, none when no tier matches (score stays zero and
the chunk is not pushed). -/
def keywordScoreChunk (q : Str) (c : DocChunk) : Option (ℚ × Str) :=
  let ql := jsLower q
  if jsIncludes (jsLower c.context) ql then some (9/10, strOf "context match")
  else if c.hierarchy.any (fun h2 => jsIncludes (jsLower h2) ql) then
    some (8/10, strOf "heading match")
  else if jsIncludes (generateSearchableText c) ql then some (6/10, strOf "content match")
  else none

/-- The result keywordSearch pushes for one chunk, or none when the chunk
fails the filters or no tier matches. -/
def keywordResultOfChunk (q : Str) (filters : Option SearchFilters) (c : DocChunk) :
    Option SearchResult :=
  if matchesFilters c filters then
    (keywordScoreChunk q c).map (fun sr => { chunk := c, score := sr.1, match_reason := sr.2 })
  else none

/-- search.ts keywordSearch: walk every chunk of every file in map order,
skip chunks failing the filters, score the rest. -/
def keywordSearch (idx : DocIndex) (q : Str) (filters : Option SearchFilters) :
    List SearchResult :=
  idx.chunks.flatMap (fun fc => fc.2.filterMap (keywordResultOfChunk q filters))

/-- All chunks of the index in iteration order (the nested loops of
search.ts). -/
def allChunks (idx : DocIndex) : List DocChunk :=
  idx.chunks.flatMap (fun fc => fc.2)

/-- The per-embedding-entry body of semanticSearch (search.ts lines 123 to
146). The query embedding (null when the embedding provider is unavailable)
and the cosine similarity of shared embeddings.ts are parameters. The
nested chunk lookup of lines 126 to 129 scans files in order and takes the
first chunk whose identifier equals the embedding key. -/
def semanticResultOfEntry (idx : DocIndex) (qv : List ℚ)
    (cosine : List ℚ → List ℚ → ℚ) (filters : Option SearchFilters) (ce : Str × List ℚ) :
    Option SearchResult :=
  match (allChunks idx).find? (fun c => c.id = ce.1) with
  | none => none
  | some c =>
    if matchesFilters c filters then
      if 3/10 < cosine qv ce.2 then
        some { chunk := c, score := cosine qv ce.2, match_reason := strOf "semantic similarity" }
      else none
    else none

/-- search.ts semanticSearch main body, applied to every embedding entry. -/
def semanticSearch (idx : DocIndex) (queryEmbedding : Option (List ℚ))
    (cosine : List ℚ → List ℚ → ℚ) (filters : Option SearchFilters) : List SearchResult :=
  match queryEmbedding with
  | none => []
  | some qv => idx.embeddings.filterMap (semanticResultOfEntry idx qv cosine filters)

/-- Ordered association-list update, modelling JS Map.prototype.set:
replace in place when the key is present, append otherwise. -/
def assocSet {κ β : Type} [DecidableEq κ] (k : κ) (v : β) : List (κ × β) → List (κ × β)
  | [] => [(k, v)]
  | (k2, v2) :: t => if k2 = k then (k2, v) :: t else (k2, v2) :: assocSet k v t

/-- The in-place boost of search.ts lines 100 to 103: add the semantic
score to the existing keyword result and concatenate the match reasons. -/
def mergeBoost (ex r : SearchResult) : SearchResult :=
  { ex with score := ex.score + r.score,
            match_reason := ex.match_reason ++ strOf " + " ++ r.match_reason }

/-- The first loop of semanticSearchWithKeyword (search.ts lines 93 to 95):
seed the merge map with the keyword results, keyed by chunk identifier. -/
def keywordSeed (kw : List SearchResult) : List (Str × SearchResult) :=
  kw.foldl (fun m r => assocSet r.chunk.id r m) []

/-- One step of the second loop of semanticSearchWithKeyword (search.ts
lines 97 to 107): boost an existing entry in place, or insert the semantic
result. -/
def semanticStep (m : List (Str × SearchResult)) (r : SearchResult) :
    List (Str × SearchResult) :=
  match assocGet r.chunk.id m with
  | some ex => assocSet r.chunk.id (mergeBoost ex r) m
  | none => assocSet r.chunk.id r m

/-- The second loop of semanticSearchWithKeyword over all semantic
results. -/
def semanticFold (m0 : List (Str × SearchResult)) (sem : List SearchResult) :
    List (Str × SearchResult) :=
  sem.foldl semanticStep m0

/-- The map-merging body of semanticSearchWithKeyword (search.ts lines 91
to 109): keyword results seed the map keyed by chunk identifier, semantic
results boost an existing entry or are appended, and the map values are
returned in insertion order. -/
def mergeResultMaps (kw sem : List SearchResult) : List SearchResult :=
  (semanticFold (keywordSeed kw) sem).map (fun kv => kv.2)

/-- search.ts semanticSearchWithKeyword. -/
def semanticSearchWithKeyword (idx : DocIndex) (q : Str) (qe : Option (List ℚ))
    (cosine : List ℚ → List ℚ → ℚ) (filters : Option SearchFilters) : List SearchResult :=
  mergeResultMaps (keywordSearch idx q filters) (semanticSearch idx qe cosine filters)

/-- types.ts SearchMode. -/
inductive SearchMode where
  | exact
  | fuzzy
  | semantic
deriving DecidableEq, Repr

/-- Stable descending insertion for the sort of search.ts line 38: a result
is placed after every earlier result whose score is at least as large, so
results of equal score keep their original relative order, as with the
stable JS array sort. -/
def insertDesc (r : SearchResult) : List SearchResult → List SearchResult
  | [] => [r]
  | x :: t => if x.score ≤ r.score then r :: x :: t else x :: insertDesc r t

/-- The sort of search.ts line 38: descending by score; the JS sort is
stable, and any stable sort computes the same list. -/
def jsSortByScoreDesc (rs : List SearchResult) : List SearchResult :=
  rs.foldr insertDesc []

/-- search.ts searchDocumentation: dispatch on the mode, sort descending by
score, truncate to the limit. The fuzzy strategy is a parameter here: no
claim below exercises it. -/
def searchDocumentation (idx : DocIndex) (q : Str) (mode : SearchMode)
    (filters : Option SearchFilters) (lim : Nat) (qe : Option (List ℚ))
    (cosine : List ℚ → List ℚ → ℚ)
    (fuzzy : DocIndex → Str → Option SearchFilters → List SearchResult) : List SearchResult :=
  let results :=
    match mode with
    | SearchMode.exact => keywordSearch idx q filters
    | SearchMode.fuzzy => fuzzy idx q filters
    | SearchMode.semantic => semanticSearchWithKeyword idx q qe cosine filters
  (jsSortByScoreDesc results).take lim

/-- context-generator.ts docsDirNames. -/
def docsDirNames : List Str :=
  [strOf "docs", strOf "documentation", strOf "doc", strOf "guides", strOf "wiki"]

/-- The scanning loop of extractCategory (context-generator.ts lines 47 to
55): find a recognised documentation directory whose following segment is
nonempty and free of dots, and return that following segment. -/
def extractCategoryScan : List Str → Option Str
  | p :: next :: rest =>
    if jsLower p ≠ [] ∧ docsDirNames.contains (jsLower p) ∧ next ≠ [] ∧ ¬ next.contains '.' then
      some next
    else extractCategoryScan (next :: rest)
  | _ => none

/-- context-generator.ts extractCategory. -/
def extractCategory (filePath : Str) : Str :=
  let parts := List.splitOn '/' filePath
  match extractCategoryScan parts with
  | some cat => cat
  | none =>
    if 2 ≤ parts.length then
      let secondToLast := parts.getD (parts.length - 2) []
      if secondToLast ≠ [] ∧ ¬ secondToLast.contains '.' then secondToLast
      else strOf "general"
    else strOf "general"

/-
Concrete values used by the claim theorems, their witnesses and their
counterexamples.
-/

/-- An index whose stored metadata version differs from the current schema
version; such an index is representable, though every index this code
creates carries the current version. -/
def idxOldVersion : DocIndex :=
  { chunks := [], embeddings := [],
    metadata := { version := strOf "0.9.0", indexedAt := 7, fileCount := 0, chunkCount := 0 } }

/-- A serialized payload carrying a stale schema version. -/
def serOldVersion : SerializedIndex :=
  { version := strOf "0.0.1", indexedAt := 3, fileCount := 1, chunkCount := 2,
    chunks := [], embeddings := [] }

/-- A serialized payload carrying the current schema version. -/
def serCurrent : SerializedIndex :=
  { version := INDEX_VERSION, indexedAt := 5, fileCount := 0, chunkCount := 0,
    chunks := [], embeddings := [] }

/-- The RST document whose assembled chunks receive duplicate identifiers:
an indented-free body paragraph block ending in a line of tildes that is the
overline of the following title. The overline line is counted inside the
content of the preceding chunk but excluded from its line span, so the split
pass overshoots and lands exactly on the start line of the following
chunk. -/
def rstDupDoc : Str := strOf "dddddddd\n\neeeee\n\n~~~\nTitle\n~~~~~\nz"

/-- A chunking configuration with small thresholds so the duplicate-id
document stays short; minTokens is at most maxTokens, as in the default
configuration. -/
def smallConfig : ChunkingConfig := { minTokens := 1, maxTokens := 4, splitAtHeadings := true }

/-
C3: storage round trip.
-/

/-- C3 counterexample: the claim says load(save(index)) equals the index
for every index, including its metadata version; but saveIndex writes the
module constant INDEX_VERSION instead of the version of the index being
saved, so an index carrying any other version does not round-trip. -/
theorem c3_counterexample :
    ¬ (∀ idx : DocIndex, loadIndex (saveIndex idx) = some idx) := by
  intro h
  exact absurd (h idxOldVersion) (by decide)

/-- C3 (amended): load after save returns the original index with its
chunks map, its embeddings map (the exact scalar values of every vector)
and its metadata, except that the metadata version field is replaced by the
current schema version INDEX_VERSION; in particular load(save(index)) =
index for every index whose version is current, which is every index this
code creates. -/
theorem c3_roundtrip_amended (idx : DocIndex) :
    loadIndex (saveIndex idx) =
      some { idx with metadata := { idx.metadata with version := INDEX_VERSION } } := by
  rfl

/-
C8: load fails closed.
-/

/-- C8: loading fails closed. A missing file, an unreadable or corrupt
file, and a stored payload whose embedded version differs from
INDEX_VERSION all give the same null result; and whenever loading does
return an index, that index is exactly the deserialization of the stored
payload, whose version is the current one — never a partially migrated or
partially trusted value. -/
theorem c8_load_fails_closed :
    loadIndex StoredFile.missing = none ∧
    loadIndex StoredFile.corrupt = none ∧
    (∀ s : SerializedIndex, s.version ≠ INDEX_VERSION →
      loadIndex (StoredFile.stored s) = none) ∧
    (∀ (s : SerializedIndex) (idx : DocIndex),
      loadIndex (StoredFile.stored s) = some idx →
      s.version = INDEX_VERSION ∧
        idx = { chunks := s.chunks, embeddings := s.embeddings,
                metadata := { version := s.version, indexedAt := s.indexedAt,
                              fileCount := s.fileCount, chunkCount := s.chunkCount } }) := by
  refine ⟨rfl, rfl, ?_, ?_⟩
  · intro s hv
    simp [loadIndex, hv]
  · intro s idx h
    simp only [loadIndex] at h
    split at h
    · cases h
      exact ⟨by assumption, rfl⟩
    · exact absurd h (by simp)

/-- Witness for C8 at concrete inputs: a stale-version payload loads as
null exactly like a missing file, and a current-version payload loads as
the full deserialization. -/
theorem c8_load_fails_closed_witness :
    loadIndex (StoredFile.stored serOldVersion) = none ∧
    serCurrent.version = INDEX_VERSION := by
  refine ⟨c8_load_fails_closed.2.2.1 serOldVersion (by decide), ?_⟩
  exact (c8_load_fails_closed.2.2.2 serCurrent
    { chunks := [], embeddings := [],
      metadata := { version := INDEX_VERSION, indexedAt := 5,
                    fileCount := 0, chunkCount := 0 } } (by decide)).1

/-
C1: the merge pass.
-/

theorem estimateTokenCount_mono {s t : Str} (h : s.length ≤ t.length) :
    estimateTokenCount s ≤ estimateTokenCount t := by
  unfold estimateTokenCount
  omega

theorem est_le_foldInto (acc c : ParsedChunk) :
    estimateTokenCount acc.content ≤
      estimateTokenCount (foldIntoAccumulator acc c).content := by
  apply estimateTokenCount_mono
  simp only [foldIntoAccumulator, List.length_append]
  omega

theorem mergeGo_some_head (minTokens : Nat) (cs : List ParsedChunk) :
    ∀ acc : ParsedChunk, ∃ h t, mergeGo minTokens cs (some acc) = h :: t ∧
      estimateTokenCount acc.content ≤ estimateTokenCount h.content := by
  induction cs with
  | nil => exact fun acc => ⟨acc, [], rfl, Nat.le_refl _⟩
  | cons c cs ih =>
    intro acc
    simp only [mergeGo]
    split
    · obtain ⟨h, t, heq, hle⟩ := ih (foldIntoAccumulator acc c)
      exact ⟨h, t, heq, Nat.le_trans (est_le_foldInto acc c) hle⟩
    · exact ⟨acc, _, rfl, Nat.le_refl _⟩

/-- Decidable statement that each adjacent pair of chunks in a list has
combined token estimates of at least the threshold. -/
def consecPairsAtLeast (minTokens : Nat) : List ParsedChunk → Bool
  | [] => true
  | [_] => true
  | a :: b :: t =>
    decide (minTokens ≤ estimateTokenCount a.content + estimateTokenCount b.content) &&
    consecPairsAtLeast minTokens (b :: t)

theorem consecPairsAtLeast_cons (minTokens : Nat) (a : ParsedChunk)
    (l : List ParsedChunk) :
    consecPairsAtLeast minTokens (a :: l) = true ↔
      (∀ b, l.head? = some b →
        minTokens ≤ estimateTokenCount a.content + estimateTokenCount b.content) ∧
      consecPairsAtLeast minTokens l = true := by
  cases l with
  | nil => simp [consecPairsAtLeast]
  | cons b t => simp [consecPairsAtLeast]

theorem mergeGo_consec (minTokens : Nat) (cs : List ParsedChunk) :
    ∀ st : Option ParsedChunk, consecPairsAtLeast minTokens (mergeGo minTokens cs st) = true := by
  induction cs with
  | nil =>
    intro st
    cases st with
    | none => rfl
    | some acc => rfl
  | cons c cs ih =>
    intro st
    cases st with
    | none =>
      simp only [mergeGo]
      split
      · exact ih (some c)
      · rename_i hbig
        rw [consecPairsAtLeast_cons]
        refine ⟨fun b _ => by omega, ih none⟩
    | some acc =>
      simp only [mergeGo]
      split
      · exact ih _
      · rename_i hflush
        rw [consecPairsAtLeast_cons]
        constructor
        · intro b hb
          split at hb
          · obtain ⟨h, t, heq, hle⟩ := mergeGo_some_head minTokens cs c
            rw [heq] at hb
            simp only [List.head?_cons, Option.some.injEq] at hb
            subst hb
            omega
          · simp only [List.head?_cons, Option.some.injEq] at hb
            subst hb
            omega
        · split
          · exact ih (some c)
          · rename_i hbig
            rw [consecPairsAtLeast_cons]
            exact ⟨fun b _ => by omega, ih none⟩

theorem mergeGo_mem_of_big (minTokens : Nat) (cs : List ParsedChunk) :
    ∀ (st : Option ParsedChunk) (c : ParsedChunk), c ∈ cs →
      minTokens ≤ estimateTokenCount c.content → c ∈ mergeGo minTokens cs st := by
  induction cs with
  | nil =>
    intro st c hc
    exact absurd hc (List.not_mem_nil c)
  | cons d cs ih =>
    intro st c hc hbig
    rcases List.mem_cons.mp hc with rfl | hmem
    · cases st with
      | none =>
        simp only [mergeGo]
        split
        · rename_i hlt
          exact absurd hlt (by omega)
        · exact List.mem_cons_self _ _
      | some acc =>
        simp only [mergeGo]
        split
        · rename_i hlt
          exact absurd hlt (by omega)
        · rw [if_neg (by omega)]
          exact List.mem_cons_of_mem _ (List.mem_cons_self _ _)
    · cases st with
      | none =>
        simp only [mergeGo]
        split
        · exact ih (some d) c hmem hbig
        · exact List.mem_cons_of_mem _ (ih none c hmem hbig)
      | some acc =>
        simp only [mergeGo]
        split
        · exact ih _ c hmem hbig
        · refine List.mem_cons_of_mem _ ?_
          split
          · exact ih (some d) c hmem hbig
          · exact List.mem_cons_of_mem _ (ih none c hmem hbig)

/-- A chunk of five estimated tokens. -/
def cexSmallA : ParsedChunk :=
  { headings := [], firstSentence := [], chunkType := ChunkType.paragraph,
    content := strOf "aaaaaaaaaaaaaaaaaaaa", startLine := 0, endLine := 0 }

/-- A chunk of six estimated tokens. -/
def cexSmallB : ParsedChunk :=
  { headings := [], firstSentence := [], chunkType := ChunkType.paragraph,
    content := strOf "bbbbbbbbbbbbbbbbbbbbbbbb", startLine := 1, endLine := 1 }

/-- A chunk of eleven estimated tokens. -/
def cexBigC : ParsedChunk :=
  { headings := [], firstSentence := [], chunkType := ChunkType.paragraph,
    content := strOf "dddddddddddddddddddddddddddddddddddddddddddd", startLine := 2,
    endLine := 2 }

/-- C1 counterexample: with inputs of five and six estimated tokens and a
threshold of ten, the accumulator holding the first chunk is flushed when
the second arrives (their combination reaches the threshold) and is emitted
below the threshold even though it is not the final output chunk, refuting
the claim that only the final accumulator can be below minTokens. -/
theorem c1_counterexample :
    ¬ (∀ (chunks : List ParsedChunk) (minTokens : Nat) (i : Nat)
        (h : i < (mergeSmallChunks chunks minTokens).length),
        estimateTokenCount ((mergeSmallChunks chunks minTokens).get ⟨i, h⟩).content <
            minTokens →
          i = (mergeSmallChunks chunks minTokens).length - 1) ∧
    mergeSmallChunks [cexSmallA, cexSmallB] 10 = [cexSmallA, cexSmallB] ∧
    estimateTokenCount cexSmallA.content < 10 := by
  refine ⟨fun h => ?_, by decide, by decide⟩
  have h2 := h [cexSmallA, cexSmallB] 10 0 (by decide) (by decide)
  rw [show (mergeSmallChunks [cexSmallA, cexSmallB] 10).length = 2 from by decide] at h2
  exact absurd h2 (by decide)

/-- C1 (amended): an output chunk of mergeSmallChunks below minTokens need
not be the final accumulator — every flushed accumulator can be below the
threshold. What does hold: (i) any two consecutive output chunks have
combined token estimates of at least minTokens, so an accumulator is
flushed exactly when folding in the next chunk would reach the threshold,
and only the final output chunk can be below the threshold with nothing
following it; and (ii) a chunk at or above minTokens is never folded into
an accumulator: it is emitted standalone, unchanged, after any pending
accumulator. -/
theorem c1_merge_amended (chunks : List ParsedChunk) (minTokens : Nat) :
    consecPairsAtLeast minTokens (mergeSmallChunks chunks minTokens) = true ∧
    ∀ c ∈ chunks, minTokens ≤ estimateTokenCount c.content →
      c ∈ mergeSmallChunks chunks minTokens :=
  ⟨mergeGo_consec minTokens chunks none,
   fun c hc hbig => mergeGo_mem_of_big minTokens chunks none c hc hbig⟩

/-- Witness for C1 at a concrete input: the eleven-token chunk is at the
threshold or above and is emitted unchanged. -/
theorem c1_merge_amended_witness :
    cexBigC ∈ ([cexSmallA, cexBigC] : List ParsedChunk) ∧
    10 ≤ estimateTokenCount cexBigC.content ∧
    cexBigC ∈ mergeSmallChunks [cexSmallA, cexBigC] 10 :=
  ⟨by decide, by decide,
   (c1_merge_amended [cexSmallA, cexBigC] 10).2 cexBigC (by decide) (by decide)⟩

/-
C2: the split pass.
-/

theorem splitGo_inv (c : ParsedChunk) (maxTokens : Nat) (allP : List Str) :
    ∀ (ps : List Str) (cur : Str) (cs off : Nat),
      (∀ p ∈ ps, p ∈ allP) →
      (cur = [] ∨ estimateTokenCount cur ≤ maxTokens ∨ cur ∈ allP) →
      ∀ piece ∈ splitGo c maxTokens ps cur cs off,
        (estimateTokenCount piece.content ≤ maxTokens ∨ piece.content ∈ allP) ∧
        piece.headings = c.headings ∧ piece.chunkType = c.chunkType := by
  intro ps
  induction ps with
  | nil =>
    intro cur cs off _ hcur piece hp
    simp only [splitGo] at hp
    split at hp
    · exact absurd hp (List.not_mem_nil _)
    · rename_i hne
      simp only [List.mem_singleton] at hp
      subst hp
      rcases hcur with h0 | h | h
      · exact absurd h0 hne
      · exact ⟨Or.inl h, rfl, rfl⟩
      · exact ⟨Or.inr h, rfl, rfl⟩
  | cons p ps ih =>
    intro cur cs off hsub hcur piece hp
    simp only [splitGo] at hp
    have hsub2 : ∀ q ∈ ps, q ∈ allP := fun q hq => hsub q (List.mem_cons_of_mem _ hq)
    have hpin : p ∈ allP := hsub p (List.mem_cons_self _ _)
    by_cases hc0 : cur = []
    · rw [if_pos hc0, if_neg (by simp [hc0])] at hp
      exact ih _ _ _ hsub2 (Or.inr (Or.inr hpin)) piece hp
    · rw [if_neg hc0] at hp
      split at hp
      · rcases List.mem_cons.mp hp with heq | hp2
        · subst heq
          rcases hcur with h0 | h | h
          · exact absurd h0 hc0
          · exact ⟨Or.inl h, rfl, rfl⟩
          · exact ⟨Or.inr h, rfl, rfl⟩
        · exact ih _ _ _ hsub2 (Or.inr (Or.inr hpin)) piece hp2
      · rename_i hno
        refine ih _ _ _ hsub2 ?_ piece hp
        have hle : ¬ maxTokens < estimateTokenCount (cur ++ strOf "\n\n" ++ p) := by
          intro hlt
          exact hno ⟨hlt, hc0⟩
        exact Or.inr (Or.inl (Nat.le_of_not_lt hle))

/-- C2: splitLargeChunks never produces a piece whose token estimate
exceeds maxTokens except when the piece is one whole blank-line-delimited
paragraph of the original chunk content (a paragraph that alone exceeds the
threshold), and every output piece keeps the heading path and chunk type of
the chunk it came from (pass-through chunks are returned unchanged). -/
theorem c2_split_within_max (chunks : List ParsedChunk) (maxTokens : Nat) :
    ∀ piece ∈ splitLargeChunks chunks maxTokens,
      ∃ c0 ∈ chunks,
        (estimateTokenCount piece.content ≤ maxTokens ∨
          piece.content ∈ splitParagraphs c0.content) ∧
        piece.headings = c0.headings ∧ piece.chunkType = c0.chunkType := by
  intro piece hp
  simp only [splitLargeChunks, List.mem_flatMap] at hp
  obtain ⟨c0, hc0, hmem⟩ := hp
  refine ⟨c0, hc0, ?_⟩
  split at hmem
  · rename_i hle
    simp only [List.mem_singleton] at hmem
    subst hmem
    exact ⟨Or.inl hle, rfl, rfl⟩
  · exact splitGo_inv c0 maxTokens (splitParagraphs c0.content) _ _ _ _
      (fun q hq => hq) (Or.inl rfl) piece hmem

/-- A two-paragraph chunk of four estimated tokens, split at a threshold of
three. -/
def cexSplit : ParsedChunk :=
  { headings := [strOf "H"], firstSentence := [], chunkType := ChunkType.paragraph,
    content := strOf "aaaaaaaa\n\nbbbb", startLine := 0, endLine := 2 }

/-- The first piece produced by splitting cexSplit at three tokens. -/
def cexSplitPiece : ParsedChunk :=
  { headings := [strOf "H"], firstSentence := [], chunkType := ChunkType.paragraph,
    content := strOf "aaaaaaaa", startLine := 0, endLine := 0 }

/-- Witness for C2 at a concrete input. -/
theorem c2_split_within_max_witness :
    cexSplitPiece ∈ splitLargeChunks [cexSplit] 3 ∧
    (∃ c0 ∈ ([cexSplit] : List ParsedChunk),
      (estimateTokenCount cexSplitPiece.content ≤ 3 ∨
        cexSplitPiece.content ∈ splitParagraphs c0.content) ∧
      cexSplitPiece.headings = c0.headings ∧ cexSplitPiece.chunkType = c0.chunkType) :=
  ⟨by decide, c2_split_within_max [cexSplit] 3 cexSplitPiece (by decide)⟩

/-
C6: RST heading recognition and heading levels.
-/

/-- The heading condition as claim C6 states it: the next line consists
solely of one repeated non-alphanumeric character, and its length is at
least the trimmed length of the heading line. -/
def rstHeadingClaimCond (line next : Str) : Bool :=
  match next with
  | [] => false
  | c :: _ =>
    !c.isAlphanum && next.all (fun x => x = c) && (jsTrim line).length ≤ next.length

/-- The heading condition as amended to match the code: the next line
starts with one of the thirteen recognised underline characters, its
trimmed text consists solely of that character repeated, the trimmed
underline is at least as long as the trimmed heading line, and the heading
line has nonempty trimmed text. -/
def rstHeadingSpecAmended (line next : Str) : Bool :=
  match next with
  | [] => false
  | c :: _ =>
    RST_HEADING_CHARS.contains c &&
    isRepeatedChar c (jsTrim next) &&
    (jsTrim line).length ≤ (jsTrim next).length &&
    0 < (jsTrim line).length

/-- C6 counterexample: an at-sign underline is non-alphanumeric, so the
claim condition holds of it, but the at-sign is not among the recognised
underline characters: parseRST keeps the line inside an ordinary chunk and
gives it no heading path. -/
theorem c6_counterexample :
    ¬ (∀ line next : Str, rstIsHeading line next = rstHeadingClaimCond line next) ∧
    rstHeadingClaimCond (strOf "Title") (strOf "@@@@@") = true ∧
    rstIsHeading (strOf "Title") (strOf "@@@@@") = false ∧
    (parseRST (strOf "Title\n@@@@@\n\nBody.")).map (fun c => c.headings) = [[]] := by
  refine ⟨fun h => ?_, by decide, by decide, by decide⟩
  have h2 := h (strOf "Title") (strOf "@@@@@")
  rw [show rstIsHeading (strOf "Title") (strOf "@@@@@") = false from by decide,
     show rstHeadingClaimCond (strOf "Title") (strOf "@@@@@") = true from by decide] at h2
  exact Bool.false_ne_true h2

theorem withIdx_append (k : Nat) (l : List Char) (c : Char) :
    withIdx k (l ++ [c]) = withIdx k l ++ [(c, k + l.length)] := by
  induction l generalizing k with
  | nil => simp [withIdx]
  | cons x t ih =>
    have harith : (k + 1) + t.length = k + (t.length + 1) := by omega
    show (x, k) :: withIdx (k+1) (t ++ [c]) =
      (x, k) :: (withIdx (k+1) t ++ [(c, k + (t.length + 1))])
    rw [ih (k+1), harith]

theorem assocGet_withIdx_isSome (k : Nat) (l : List Char) (c : Char) :
    (assocGet c (withIdx k l)).isSome = l.contains c := by
  induction l generalizing k with
  | nil => simp [withIdx, assocGet]
  | cons x t ih =>
    by_cases hx : x = c
    · subst hx
      simp [withIdx, assocGet, List.contains_cons]
    · have hbeq : (c == x) = false := beq_eq_false_iff_ne.mpr (fun he => hx he.symm)
      simp only [withIdx, assocGet, if_neg hx, ih (k+1), List.contains_cons, hbeq,
        Bool.false_or]

theorem length_withIdx (k : Nat) (l : List Char) : (withIdx k l).length = l.length := by
  induction l generalizing k with
  | nil => rfl
  | cons x t ih => simp [withIdx, ih]

theorem discoverLevels_go (cs : List Char) :
    ∀ acc : List Char,
      List.foldl (fun m c => (rstLevelAssign m c).2) (withIdx 0 acc) cs =
        withIdx 0 (List.foldl (fun a c => if a.contains c then a else a ++ [c]) acc cs) := by
  induction cs with
  | nil => intro acc; rfl
  | cons c cs ih =>
    intro acc
    simp only [List.foldl_cons]
    by_cases hmem : acc.contains c = true
    · obtain ⟨v, hv⟩ := Option.isSome_iff_exists.mp
        (by rw [assocGet_withIdx_isSome 0 acc c, hmem])
      rw [show (rstLevelAssign (withIdx 0 acc) c).2 = withIdx 0 acc from by
            simp [rstLevelAssign, hv],
          show (if acc.contains c = true then acc else acc ++ [c]) = acc from if_pos hmem]
      exact ih acc
    · have hnone : assocGet c (withIdx 0 acc) = none := by
        cases hg : assocGet c (withIdx 0 acc) with
        | none => rfl
        | some v =>
          have hs := assocGet_withIdx_isSome 0 acc c
          rw [hg] at hs
          simp only [Option.isSome_some] at hs
          exact absurd hs.symm hmem
      rw [show (rstLevelAssign (withIdx 0 acc) c).2 =
            withIdx 0 acc ++ [(c, (withIdx 0 acc).length)] from by
            simp [rstLevelAssign, hnone],
          length_withIdx,
          show withIdx 0 acc ++ [(c, acc.length)] = withIdx 0 (acc ++ [c]) from by
            rw [withIdx_append]; simp,
          show (if acc.contains c = true then acc else acc ++ [c]) = acc ++ [c] from
            if_neg hmem]
      exact ih (acc ++ [c])

/-- C6 (amended): parseRST treats a line as a heading exactly when the
rstHeadingSpecAmended condition holds (the underline must come from the
fixed character set and the heading line must have nonempty trimmed text);
heading levels are assigned by first appearance order of the underline
character: the discovery map built by the level-assignment step of parseRST
maps the j-th distinct underline character to level j; the document of the
spec yields two chunks, the second with heading path Title, Section; and a
document whose underline characters appear in the order dash, equals, dash
nests the equals-heading under the dash-heading, demonstrating
discovery-order rather than fixed-significance levels. -/
theorem c6_rst_amended :
    (∀ line next : Str, rstIsHeading line next = rstHeadingSpecAmended line next) ∧
    (∀ cs : List Char, discoverLevels cs = withIdx 0 (firstOccurrences cs)) ∧
    (parseRST (strOf "Title\n=====\n\nBody.\n\nSection\n-------\n\nMore.")).map
        (fun c => c.headings) =
      [[strOf "Title"], [strOf "Title", strOf "Section"]] ∧
    (parseRST (strOf "A\n---\n\nbody one.\n\nB\n===\n\nbody two.\n\nC\n---\n\nbody three.")).map
        (fun c => c.headings) =
      [[strOf "A"], [strOf "A", strOf "B"], [strOf "C"]] := by
  refine ⟨?_, ?_, by decide, by decide⟩
  · intro line next
    cases next with
    | nil => simp [rstIsHeading, rstHeadingSpecAmended]
    | cons c t =>
      simp only [rstIsHeading, rstHeadingSpecAmended, List.headD_cons]
      cases hA : RST_HEADING_CHARS.contains c <;>
        cases hB : isRepeatedChar c (jsTrim (c :: t)) <;>
          cases hC : decide ((jsTrim line).length ≤ (jsTrim (c :: t)).length) <;>
            cases hD : decide (0 < (jsTrim line).length) <;>
              simp_all
  · intro cs
    exact discoverLevels_go cs []

/-
C7: category extraction.
-/

theorem docsDirNames_ne_nil {x : Str} (h : docsDirNames.contains x = true) : x ≠ [] := by
  have hm : x ∈ docsDirNames := by simpa using h
  simp only [docsDirNames, List.mem_cons, List.mem_singleton] at hm
  rcases hm with rfl | rfl | rfl | rfl | rfl | hm
  · decide
  · decide
  · decide
  · decide
  · decide
  · simp at hm

theorem extractCategoryScan_eq (parts : List Str) :
    extractCategoryScan parts =
      ((parts.zip parts.tail).find? (fun pr =>
          docsDirNames.contains (jsLower pr.1) && !pr.2.isEmpty && !pr.2.contains '.')).map
        (fun pr => pr.2) := by
  induction parts with
  | nil => rfl
  | cons p rest ih =>
    cases rest with
    | nil => rfl
    | cons next rest2 =>
      simp only [List.tail_cons, List.zip_cons_cons, List.find?_cons]
      by_cases hA : docsDirNames.contains (jsLower p) = true
      · have hpne : jsLower p ≠ [] := docsDirNames_ne_nil hA
        by_cases hB : next ≠ [] ∧ ¬ next.contains '.' = true
        · rw [extractCategoryScan, if_pos ⟨hpne, hA, hB.1, hB.2⟩]
          have hie : next.isEmpty = false := by
            cases next with
            | nil => exact absurd rfl hB.1
            | cons a b => rfl
          have hnd : next.contains '.' = false := by
            cases hcc : next.contains '.' with
            | false => rfl
            | true => exact absurd hcc hB.2
          rw [hA, hie, hnd]
          rfl
        · have hcond : ¬ (jsLower p ≠ [] ∧ docsDirNames.contains (jsLower p) = true ∧
              next ≠ [] ∧ ¬ next.contains '.' = true) := by
            intro hc
            exact hB ⟨hc.2.2.1, hc.2.2.2⟩
          rw [extractCategoryScan, if_neg hcond]
          have hpred : (docsDirNames.contains (jsLower p) && !next.isEmpty &&
              !next.contains '.') = false := by
            rcases Decidable.not_and_iff_or_not.mp hB with hn | hn
            · have hne : next = [] := Decidable.not_not.mp hn
              subst hne
              simp only [List.isEmpty_nil, Bool.not_true, Bool.and_false, Bool.false_and]
            · have hnd : next.contains '.' = true := Decidable.not_not.mp hn
              rw [hnd]
              simp only [Bool.not_true, Bool.and_false]
          rw [hpred]
          exact ih
      · have hcond : ¬ (jsLower p ≠ [] ∧ docsDirNames.contains (jsLower p) = true ∧
            next ≠ [] ∧ ¬ next.contains '.' = true) := by
          intro hc
          exact hA hc.2.1
        rw [extractCategoryScan, if_neg hcond]
        have hAf : docsDirNames.contains (jsLower p) = false := by
          cases hcc : docsDirNames.contains (jsLower p) with
          | false => rfl
          | true => exact absurd hcc hA
        rw [hAf]
        simp only [Bool.false_and]
        exact ih

/-- The category rule as amended: the segment following the first
documentation directory whose following segment is nonempty and free of
dots; otherwise the parent directory segment provided the path has at least
two segments and that segment is nonempty and free of dots; otherwise the
literal general. -/
def extractCategorySpecAmended (filePath : Str) : Str :=
  let parts := List.splitOn '/' filePath
  match (parts.zip parts.tail).find? (fun pr =>
      docsDirNames.contains (jsLower pr.1) && !pr.2.isEmpty && !pr.2.contains '.') with
  | some pr => pr.2
  | none =>
    if 2 ≤ parts.length ∧ parts.getD (parts.length - 2) [] ≠ [] ∧
        ¬ (parts.getD (parts.length - 2) []).contains '.' then
      parts.getD (parts.length - 2) []
    else strOf "general"

/-- C7 counterexample: for a path with no documentation directory whose
parent directory name contains a dot, the code does not return the parent
directory name as the claim states; it falls through to the literal
general. -/
theorem c7_counterexample :
    (List.splitOn '/' (strOf "v1.0/notes.md")).all
        (fun p => !(docsDirNames.contains (jsLower p))) = true ∧
    extractCategory (strOf "v1.0/notes.md") = strOf "general" ∧
    strOf "general" ≠ strOf "v1.0" := by
  refine ⟨by decide, by decide, by decide⟩

/-- C7 (amended): extractCategory returns the first path segment following
a recognised documentation-directory name provided that segment is nonempty
and contains no dot; if no such pair exists it returns the parent directory
segment provided the path has at least two segments and the parent segment
is nonempty and contains no dot; otherwise (root-level files, or a parent
segment containing a dot) it returns the literal general. The two examples
of the spec hold. -/
theorem c7_category_amended :
    (∀ p : Str, extractCategory p = extractCategorySpecAmended p) ∧
    extractCategory (strOf "docs/frontend/auth.md") = strOf "frontend" ∧
    extractCategory (strOf "README.md") = strOf "general" := by
  refine ⟨?_, by decide, by decide⟩
  intro p
  simp only [extractCategory, extractCategorySpecAmended, extractCategoryScan_eq]
  cases hf : (((List.splitOn '/' p).zip (List.splitOn '/' p).tail).find? (fun pr =>
      docsDirNames.contains (jsLower pr.1) && !pr.2.isEmpty && !pr.2.contains '.')) with
  | some pr => rfl
  | none =>
    simp only [Option.map_none]
    by_cases h2 : 2 ≤ (List.splitOn '/' p).length
    · by_cases h3 : (List.splitOn '/' p).getD ((List.splitOn '/' p).length - 2) [] ≠ [] ∧
          ¬ ((List.splitOn '/' p).getD ((List.splitOn '/' p).length - 2) []).contains '.'
      · rw [if_pos h2, if_pos h3, if_pos ⟨h2, h3⟩]
        rfl
      · rw [if_pos h2, if_neg h3, if_neg (fun hc => h3 ⟨hc.2.1, hc.2.2⟩)]
        rfl
    · rw [if_neg h2, if_neg (fun hc => h2 hc.1)]
      rfl

/-
C4: exact-search tiers.
-/

theorem mem_keywordSearch (idx : DocIndex) (q : Str) (filters : Option SearchFilters)
    (r : SearchResult) :
    r ∈ keywordSearch idx q filters ↔
      ∃ c ∈ allChunks idx, matchesFilters c filters = true ∧
        keywordScoreChunk q c = some (r.score, r.match_reason) ∧ r.chunk = c := by
  simp only [keywordSearch, allChunks, List.mem_flatMap, List.mem_filterMap]
  constructor
  · rintro ⟨fc, hfc, c, hc, hr⟩
    simp only [keywordResultOfChunk] at hr
    split at hr
    · rename_i hm
      cases hsc : keywordScoreChunk q c with
      | none =>
        rw [hsc] at hr
        exact absurd hr (by simp)
      | some sr =>
        rw [hsc] at hr
        simp only [Option.map_some', Option.some.injEq] at hr
        subst hr
        exact ⟨c, ⟨fc, hfc, hc⟩, hm, by rw [hsc], rfl⟩
    · exact absurd hr (by simp)
  · rintro ⟨c, ⟨fc, hfc, hc⟩, hm, hsc, hchunk⟩
    refine ⟨fc, hfc, c, hc, ?_⟩
    obtain ⟨rc, rs, rr⟩ := r
    subst hchunk
    simp only [keywordResultOfChunk, hm, if_true, hsc]
    rfl

/-- The chunk of the spec example for exact search. -/
def chAuthExample : DocChunk :=
  { id := strOf "docs/frontend/auth.md:0"
    file := strOf "docs/frontend/auth.md"
    startLine := 0, endLine := 5
    content := strOf "The frontend uses JWT tokens."
    context := strOf "frontend > Authentication: uses JWT tokens"
    hierarchy := [strOf "Authentication"]
    chunkType := ChunkType.heading
    metadata := none }

/-- A one-chunk index holding the spec example chunk. -/
def idxAuthExample : DocIndex :=
  { chunks := [(strOf "docs/frontend/auth.md", [chAuthExample])]
    embeddings := []
    metadata := { version := INDEX_VERSION, indexedAt := 0, fileCount := 1, chunkCount := 1 } }

/-- The search result the spec example expects. -/
def rAuthExample : SearchResult :=
  { chunk := chAuthExample, score := 9/10, match_reason := strOf "context match" }

/-- C4: every result of keywordSearch is scored once, at the highest
matching tier: a context substring match gives score 9/10 with reason
context match; otherwise a heading-path segment match gives 8/10 with
reason heading match; otherwise a searchable-text match gives 6/10 with
reason content match; a chunk with no matching tier never appears in the
results; every chunk that passes the filters and matches some tier appears
with that score and reason; and exact search for authentication against the
spec example chunk returns exactly that chunk with score 9/10 and reason
context match. -/
theorem c4_exact_tiers :
    (∀ (idx : DocIndex) (q : Str) (filters : Option SearchFilters) (r : SearchResult),
      r ∈ keywordSearch idx q filters →
        (jsIncludes (jsLower r.chunk.context) (jsLower q) = true →
          r.score = 9/10 ∧ r.match_reason = strOf "context match") ∧
        (jsIncludes (jsLower r.chunk.context) (jsLower q) = false →
          r.chunk.hierarchy.any (fun h2 => jsIncludes (jsLower h2) (jsLower q)) = true →
          r.score = 8/10 ∧ r.match_reason = strOf "heading match") ∧
        (jsIncludes (jsLower r.chunk.context) (jsLower q) = false →
          r.chunk.hierarchy.any (fun h2 => jsIncludes (jsLower h2) (jsLower q)) = false →
          r.score = 6/10 ∧ r.match_reason = strOf "content match" ∧
            jsIncludes (generateSearchableText r.chunk) (jsLower q) = true)) ∧
    (∀ (idx : DocIndex) (q : Str) (filters : Option SearchFilters) (c : DocChunk),
      keywordScoreChunk q c = none →
        ∀ r ∈ keywordSearch idx q filters, r.chunk ≠ c) ∧
    (∀ (idx : DocIndex) (q : Str) (filters : Option SearchFilters) (c : DocChunk)
      (sc : ℚ) (reason : Str),
      c ∈ allChunks idx → matchesFilters c filters = true →
      keywordScoreChunk q c = some (sc, reason) →
        ({ chunk := c, score := sc, match_reason := reason } : SearchResult) ∈
          keywordSearch idx q filters) ∧
    keywordSearch idxAuthExample (strOf "authentication") none = [rAuthExample] := by
  refine ⟨?_, ?_, ?_, by decide⟩
  · intro idx q filters r hr
    obtain ⟨c, _, _, hsc, hchunk⟩ := (mem_keywordSearch idx q filters r).mp hr
    subst hchunk
    refine ⟨?_, ?_, ?_⟩
    · intro h1
      simp only [keywordScoreChunk, h1, if_true, Option.some.injEq, Prod.mk.injEq] at hsc
      exact ⟨hsc.1.symm, hsc.2.symm⟩
    · intro h1 h2
      simp only [keywordScoreChunk, h1, h2, Bool.false_eq_true, if_false, if_true,
        Option.some.injEq, Prod.mk.injEq] at hsc
      exact ⟨hsc.1.symm, hsc.2.symm⟩
    · intro h1 h2
      simp only [keywordScoreChunk, h1, h2, Bool.false_eq_true, if_false] at hsc
      split at hsc
      · rename_i h3
        simp only [Option.some.injEq, Prod.mk.injEq] at hsc
        exact ⟨hsc.1.symm, hsc.2.symm, h3⟩
      · exact absurd hsc (by simp)
  · intro idx q filters c hnone r hr hchunk
    obtain ⟨c2, _, _, hsc, hchunk2⟩ := (mem_keywordSearch idx q filters r).mp hr
    rw [hchunk] at hchunk2
    subst hchunk2
    rw [hnone] at hsc
    exact absurd hsc (by simp)
  · intro idx q filters c sc reason hc hm hsc
    exact (mem_keywordSearch idx q filters _).mpr ⟨c, hc, hm, by simpa using hsc, rfl⟩

/-- Witness for C4 at the spec example: the result is in the keyword
results, and the first tier of the theorem gives it score 9/10 with reason
context match. -/
theorem c4_exact_tiers_witness :
    rAuthExample ∈ keywordSearch idxAuthExample (strOf "authentication") none ∧
    rAuthExample.score = 9/10 ∧ rAuthExample.match_reason = strOf "context match" := by
  refine ⟨by decide, ?_⟩
  exact (c4_exact_tiers.1 idxAuthExample (strOf "authentication") none rAuthExample
    (by decide)).1 (by decide)

/-
Association-list lemmas for the JS Map model used by the hybrid merge.
-/

theorem assocGet_assocSet_self {κ β : Type} [DecidableEq κ] (k : κ) (v : β)
    (m : List (κ × β)) : assocGet k (assocSet k v m) = some v := by
  induction m with
  | nil => simp [assocSet, assocGet]
  | cons kv t ih =>
    obtain ⟨k2, v2⟩ := kv
    by_cases hk : k2 = k
    · subst hk
      simp [assocSet, assocGet]
    · simp [assocSet, assocGet, hk, ih]

theorem assocGet_assocSet_other {κ β : Type} [DecidableEq κ] {k k2 : κ} (hne : k2 ≠ k)
    (v : β) (m : List (κ × β)) : assocGet k2 (assocSet k v m) = assocGet k2 m := by
  have hkk : ¬ k = k2 := fun h => hne h.symm
  induction m with
  | nil => simp only [assocSet, assocGet, if_neg hkk]
  | cons kv t ih =>
    obtain ⟨k3, v3⟩ := kv
    by_cases hk : k3 = k
    · subst hk
      simp only [assocSet, if_pos rfl, assocGet, if_neg hkk]
    · simp only [assocSet, if_neg hk, assocGet]
      by_cases hk2 : k3 = k2
      · simp [hk2]
      · simp only [if_neg hk2, ih]

theorem assocSet_absent {κ β : Type} [DecidableEq κ] {k : κ} {m : List (κ × β)}
    (h : assocGet k m = none) (v : β) : assocSet k v m = m ++ [(k, v)] := by
  induction m with
  | nil => rfl
  | cons kv t ih =>
    obtain ⟨k2, v2⟩ := kv
    simp only [assocGet] at h
    split at h
    · exact absurd h (by simp)
    · rename_i hk
      simp only [assocSet, if_neg hk, List.cons_append, List.cons.injEq, true_and]
      exact ih h

theorem assocGet_append {κ β : Type} [DecidableEq κ] (k : κ) (m1 m2 : List (κ × β)) :
    assocGet k (m1 ++ m2) =
      match assocGet k m1 with
      | some v => some v
      | none => assocGet k m2 := by
  induction m1 with
  | nil => simp [assocGet]
  | cons kv t ih =>
    obtain ⟨k2, v2⟩ := kv
    by_cases hk : k2 = k
    · subst hk
      simp [assocGet]
    · simp [assocGet, hk, ih]

theorem assocGet_mem {κ β : Type} [DecidableEq κ] {k : κ} {m : List (κ × β)} {v : β}
    (h : assocGet k m = some v) : (k, v) ∈ m := by
  induction m with
  | nil => simp [assocGet] at h
  | cons kv t ih =>
    obtain ⟨k2, v2⟩ := kv
    simp only [assocGet] at h
    split at h
    · rename_i hk
      subst hk
      cases h
      exact List.mem_cons_self _ _
    · exact List.mem_cons_of_mem _ (ih h)

theorem assocGet_mapPair_of_mem {r : SearchResult} :
    ∀ kw : List SearchResult, r ∈ kw →
      (kw.map (fun x => x.chunk.id)).Nodup →
      assocGet r.chunk.id (kw.map (fun x => (x.chunk.id, x))) = some r := by
  intro kw
  induction kw with
  | nil =>
    intro h
    exact absurd h (List.not_mem_nil r)
  | cons x t ih =>
    intro hr hnd
    rcases List.mem_cons.mp hr with rfl | hmem
    · simp [assocGet]
    · have hne : x.chunk.id ≠ r.chunk.id := by
        intro he
        apply (List.nodup_cons.mp hnd).1
        show x.chunk.id ∈ List.map (fun y => y.chunk.id) t
        rw [he]
        exact List.mem_map_of_mem (fun y => y.chunk.id) hmem
      simp only [List.map_cons, assocGet]
      rw [if_neg hne]
      exact ih hmem (List.nodup_cons.mp hnd).2

theorem assocGet_mapPair_of_not_mem {k : Str} :
    ∀ kw : List SearchResult, k ∉ kw.map (fun x => x.chunk.id) →
      assocGet k (kw.map (fun x => (x.chunk.id, x))) = none := by
  intro kw
  induction kw with
  | nil => intro _; rfl
  | cons x t ih =>
    intro hk
    simp only [List.map_cons, List.mem_cons] at hk
    push_neg at hk
    simp only [List.map_cons, assocGet]
    rw [if_neg (fun he => hk.1 he.symm)]
    exact ih hk.2

theorem keywordSeed_eq :
    ∀ (kw : List SearchResult) (m : List (Str × SearchResult)),
      (∀ r ∈ kw, assocGet r.chunk.id m = none) →
      (kw.map (fun r => r.chunk.id)).Nodup →
      kw.foldl (fun m r => assocSet r.chunk.id r m) m =
        m ++ kw.map (fun r => (r.chunk.id, r)) := by
  intro kw
  induction kw with
  | nil => intro m _ _; simp
  | cons r rest ih =>
    intro m habs hnd
    simp only [List.foldl_cons, List.map_cons]
    rw [assocSet_absent (habs r (List.mem_cons_self _ _)) r]
    rw [ih (m ++ [(r.chunk.id, r)]) ?habs2 (List.nodup_cons.mp hnd).2]
    · rw [List.append_assoc]
      rfl
    · intro r2 hr2
      rw [assocGet_append]
      rw [habs r2 (List.mem_cons_of_mem _ hr2)]
      have hne : r.chunk.id ≠ r2.chunk.id := by
        intro he
        apply (List.nodup_cons.mp hnd).1
        show r.chunk.id ∈ List.map (fun y => y.chunk.id) rest
        rw [he]
        exact List.mem_map_of_mem (fun y => y.chunk.id) hr2
      simp [assocGet, hne]

theorem semanticFold_assocGet :
    ∀ (sem : List SearchResult) (m : List (Str × SearchResult)) (k : Str),
      (sem.map (fun r => r.chunk.id)).Nodup →
      assocGet k (semanticFold m sem) =
        match sem.find? (fun s => s.chunk.id = k) with
        | none => assocGet k m
        | some s =>
          match assocGet k m with
          | some ex => some (mergeBoost ex s)
          | none => some s := by
  intro sem
  induction sem with
  | nil => intro m k _; rfl
  | cons s rest ih =>
    intro m k hnd
    have hnotin : s.chunk.id ∉ rest.map (fun r => r.chunk.id) := (List.nodup_cons.mp hnd).1
    have hnd2 := (List.nodup_cons.mp hnd).2
    show assocGet k (semanticFold (semanticStep m s) rest) = _
    by_cases hk : s.chunk.id = k
    · have hfind : (s :: rest).find? (fun x => x.chunk.id = k) = some s :=
        List.find?_cons_of_pos _ (by simp [hk])
      have hrest : rest.find? (fun x => x.chunk.id = k) = none := by
        rw [List.find?_eq_none]
        intro x hx
        simp only [decide_eq_true_eq]
        intro he
        apply hnotin
        show s.chunk.id ∈ List.map (fun y => y.chunk.id) rest
        rw [hk, ← he]
        exact List.mem_map_of_mem (fun y => y.chunk.id) hx
      rw [ih (semanticStep m s) k hnd2, hrest, hfind]
      subst hk
      simp only [semanticStep]
      cases hg : assocGet s.chunk.id m with
      | some ex => simp [hg, assocGet_assocSet_self]
      | none => simp [hg, assocGet_assocSet_self]
    · have hfind : (s :: rest).find? (fun x => x.chunk.id = k) =
          rest.find? (fun x => x.chunk.id = k) :=
        List.find?_cons_of_neg _ (by simp [hk])
      have hstep : assocGet k (semanticStep m s) = assocGet k m := by
        simp only [semanticStep]
        cases hg : assocGet s.chunk.id m with
        | some ex => exact assocGet_assocSet_other (fun he => hk he.symm) _ m
        | none => exact assocGet_assocSet_other (fun he => hk he.symm) _ m
      rw [ih (semanticStep m s) k hnd2, hfind, hstep]

theorem find?_self_of_nodup {s : SearchResult} :
    ∀ sem : List SearchResult, s ∈ sem →
      (sem.map (fun r => r.chunk.id)).Nodup →
      sem.find? (fun x => x.chunk.id = s.chunk.id) = some s := by
  intro sem
  induction sem with
  | nil =>
    intro h
    exact absurd h (List.not_mem_nil s)
  | cons x rest ih =>
    intro hs hnd
    rcases List.mem_cons.mp hs with rfl | hmem
    · exact List.find?_cons_of_pos _ (by simp)
    · have hne : x.chunk.id ≠ s.chunk.id := by
        intro he
        apply (List.nodup_cons.mp hnd).1
        show x.chunk.id ∈ List.map (fun y => y.chunk.id) rest
        rw [he]
        exact List.mem_map_of_mem (fun y => y.chunk.id) hmem
      rw [List.find?_cons_of_neg _ (by simp [hne])]
      exact ih hmem (List.nodup_cons.mp hnd).2

theorem sublist_map_filterMap {α β γ : Type} (f : α → Option β) (ka : α → γ) (kb : β → γ)
    (hf : ∀ a b, f a = some b → kb b = ka a) :
    ∀ l : List α, ((l.filterMap f).map kb).Sublist (l.map ka) := by
  intro l
  induction l with
  | nil => simp
  | cons a t ih =>
    cases hfa : f a with
    | none =>
      simp only [List.filterMap_cons, hfa, List.map_cons]
      exact ih.cons (ka a)
    | some b =>
      simp only [List.filterMap_cons, hfa, List.map_cons]
      rw [hf a b hfa]
      exact ih.cons₂ (ka a)

theorem keywordSearch_eq_filterMap (idx : DocIndex) (q : Str)
    (filters : Option SearchFilters) :
    keywordSearch idx q filters = (allChunks idx).filterMap (keywordResultOfChunk q filters) := by
  show idx.chunks.flatMap (fun fc => fc.2.filterMap (keywordResultOfChunk q filters)) = _
  unfold allChunks
  induction idx.chunks with
  | nil => rfl
  | cons fc rest ih =>
    simp only [List.flatMap_cons, List.filterMap_append, ih]

theorem keywordResultOfChunk_chunk {q : Str} {filters : Option SearchFilters}
    {c : DocChunk} {r : SearchResult} (h : keywordResultOfChunk q filters c = some r) :
    r.chunk = c := by
  simp only [keywordResultOfChunk] at h
  split at h
  · cases hsc : keywordScoreChunk q c with
    | none => rw [hsc] at h; exact absurd h (by simp)
    | some sr =>
      rw [hsc] at h
      simp only [Option.map_some', Option.some.injEq] at h
      rw [← h]
  · exact absurd h (by simp)

theorem keywordSearch_ids_nodup (idx : DocIndex) (q : Str) (filters : Option SearchFilters)
    (hc : ((allChunks idx).map (fun c => c.id)).Nodup) :
    ((keywordSearch idx q filters).map (fun r => r.chunk.id)).Nodup := by
  rw [keywordSearch_eq_filterMap]
  exact (sublist_map_filterMap (keywordResultOfChunk q filters) (fun c => c.id)
    (fun r => r.chunk.id)
    (fun c r h => by
      show r.chunk.id = c.id
      rw [keywordResultOfChunk_chunk h]) (allChunks idx)).nodup hc

theorem semanticResultOfEntry_id {idx : DocIndex} {qv : List ℚ}
    {cosine : List ℚ → List ℚ → ℚ} {filters : Option SearchFilters}
    {ce : Str × List ℚ} {r : SearchResult}
    (h : semanticResultOfEntry idx qv cosine filters ce = some r) :
    r.chunk.id = ce.1 := by
  simp only [semanticResultOfEntry] at h
  split at h
  · exact absurd h (by simp)
  · rename_i c hfind
    have hcid : c.id = ce.1 := by
      have := List.find?_some hfind
      simpa using this
    split at h
    · split at h
      · simp only [Option.some.injEq] at h
        rw [← h]
        exact hcid
      · exact absurd h (by simp)
    · exact absurd h (by simp)

theorem semanticSearch_ids_nodup (idx : DocIndex) (qe : Option (List ℚ))
    (cosine : List ℚ → List ℚ → ℚ) (filters : Option SearchFilters)
    (he : (idx.embeddings.map (fun e => e.1)).Nodup) :
    ((semanticSearch idx qe cosine filters).map (fun r => r.chunk.id)).Nodup := by
  cases qe with
  | none => simp [semanticSearch]
  | some qv =>
    show ((idx.embeddings.filterMap (semanticResultOfEntry idx qv cosine filters)).map
      (fun r => r.chunk.id)).Nodup
    exact (sublist_map_filterMap (semanticResultOfEntry idx qv cosine filters)
      (fun e => e.1) (fun r => r.chunk.id)
      (fun ce r h => semanticResultOfEntry_id h) idx.embeddings).nodup he

/-
C5: hybrid score merging.
-/

/-- The chunk of the hybrid example: its context does not contain the
query, its heading path is empty, but its content does, so exact search
scores it at the content tier, 6/10. -/
def chJwtC5 : DocChunk :=
  { id := strOf "f:0", file := strOf "f", startLine := 0, endLine := 0
    content := strOf "uses JWT here"
    context := strOf "general"
    hierarchy := []
    chunkType := ChunkType.paragraph
    metadata := none }

/-- A one-chunk index with one embedding entry for the hybrid example. -/
def idxJwtC5 : DocIndex :=
  { chunks := [(strOf "f", [chJwtC5])]
    embeddings := [(strOf "f:0", [1])]
    metadata := { version := INDEX_VERSION, indexedAt := 0, fileCount := 1, chunkCount := 1 } }

/-- The keyword result of the hybrid example. -/
def kResC5 : SearchResult :=
  { chunk := chJwtC5, score := 6/10, match_reason := strOf "content match" }

/-- The semantic result of the hybrid example, produced with a cosine
similarity of two fifths. -/
def sResC5 : SearchResult :=
  { chunk := chJwtC5, score := 2/5, match_reason := strOf "semantic similarity" }

/-- C5 counterexample: with two distinct chunks sharing one identifier, the
chunk found by semantic search (the first with that identifier) appears in
both strategies yet is absent from the hybrid output: the merge map keyed
by identifier kept only the last keyword result for that identifier, so the
claim fails for an arbitrary index. -/
theorem c5_counterexample :
    (let ch1 : DocChunk := { chJwtC5 with content := strOf "uses JWT one" };
     let ch2 : DocChunk := { chJwtC5 with content := strOf "uses JWT two" };
     let idx : DocIndex :=
       { chunks := [(strOf "f", [ch1, ch2])]
         embeddings := [(strOf "f:0", [1])]
         metadata := { version := INDEX_VERSION, indexedAt := 0, fileCount := 1,
                       chunkCount := 2 } };
     ({ chunk := ch1, score := 6/10, match_reason := strOf "content match" } : SearchResult) ∈
        keywordSearch idx (strOf "jwt") none ∧
     ({ chunk := ch1, score := 2/5, match_reason := strOf "semantic similarity" } :
        SearchResult) ∈
        semanticSearch idx (some [1]) (fun _ _ => 2/5) none ∧
     (semanticSearchWithKeyword idx (strOf "jwt") (some [1]) (fun _ _ => 2/5) none).all
        (fun r => r.chunk ≠ ch1) = true) := by
  refine ⟨by decide, by decide, by decide⟩

/-- C5 (amended): provided the chunk identifiers of the index and the keys
of its embedding map are pairwise distinct (the documented invariants of
the data model), hybrid search runs the exact and semantic strategies
independently and merges by chunk identifier: a keyword result whose
identifier has no semantic counterpart is returned unchanged, a semantic
result whose identifier has no keyword counterpart is returned unchanged,
and when both strategies produce a result for the same identifier the
output carries the keyword chunk, the sum of the two scores, and the two
match reasons joined by the separator. In the concrete example a chunk
matching exact at 6/10 and semantic at 2/5 yields the combined score
6/10 + 2/5 = 1 with both reasons joined. -/
theorem c5_hybrid_amended (idx : DocIndex) (q : Str) (qe : Option (List ℚ))
    (cosine : List ℚ → List ℚ → ℚ) (filters : Option SearchFilters)
    (hc : ((allChunks idx).map (fun c => c.id)).Nodup)
    (he : (idx.embeddings.map (fun e => e.1)).Nodup) :
    (∀ k ∈ keywordSearch idx q filters,
      (∀ s ∈ semanticSearch idx qe cosine filters, s.chunk.id ≠ k.chunk.id) →
      k ∈ semanticSearchWithKeyword idx q qe cosine filters) ∧
    (∀ s ∈ semanticSearch idx qe cosine filters,
      (∀ k ∈ keywordSearch idx q filters, k.chunk.id ≠ s.chunk.id) →
      s ∈ semanticSearchWithKeyword idx q qe cosine filters) ∧
    (∀ k ∈ keywordSearch idx q filters, ∀ s ∈ semanticSearch idx qe cosine filters,
      k.chunk.id = s.chunk.id →
      ({ chunk := k.chunk, score := k.score + s.score,
         match_reason := k.match_reason ++ strOf " + " ++ s.match_reason } : SearchResult) ∈
        semanticSearchWithKeyword idx q qe cosine filters) ∧
    semanticSearchWithKeyword idxJwtC5 (strOf "jwt") (some [1]) (fun _ _ => 2/5) none =
      [{ chunk := chJwtC5, score := 6/10 + 2/5,
         match_reason := strOf "content match + semantic similarity" }] ∧
    ((6 : ℚ)/10 + 2/5 = 1 ∧ (2 : ℚ)/5 = 4/10) := by
  have hkwnd := keywordSearch_ids_nodup idx q filters hc
  have hsemnd := semanticSearch_ids_nodup idx qe cosine filters he
  have hseed : keywordSeed (keywordSearch idx q filters) =
      (keywordSearch idx q filters).map (fun r => (r.chunk.id, r)) := by
    have := keywordSeed_eq (keywordSearch idx q filters) [] (fun r _ => rfl) hkwnd
    simpa [keywordSeed] using this
  refine ⟨?_, ?_, ?_, by decide, by decide, by decide⟩
  · intro k hk hnosem
    have hget : assocGet k.chunk.id
        (semanticFold (keywordSeed (keywordSearch idx q filters))
          (semanticSearch idx qe cosine filters)) = some k := by
      rw [semanticFold_assocGet (semanticSearch idx qe cosine filters) _ _ hsemnd]
      have hfind : (semanticSearch idx qe cosine filters).find?
          (fun s => s.chunk.id = k.chunk.id) = none := by
        rw [List.find?_eq_none]
        intro s hs
        simpa using hnosem s hs
      rw [hfind, hseed]
      exact assocGet_mapPair_of_mem (keywordSearch idx q filters) hk hkwnd
    exact List.mem_map_of_mem (fun kv => kv.2) (assocGet_mem hget)
  · intro s hs hnokw
    have hget : assocGet s.chunk.id
        (semanticFold (keywordSeed (keywordSearch idx q filters))
          (semanticSearch idx qe cosine filters)) = some s := by
      rw [semanticFold_assocGet (semanticSearch idx qe cosine filters) _ _ hsemnd]
      rw [find?_self_of_nodup (semanticSearch idx qe cosine filters) hs hsemnd]
      rw [hseed, assocGet_mapPair_of_not_mem (keywordSearch idx q filters) ?notin]
      · intro hin
        obtain ⟨k, hk, hkeq⟩ := List.mem_map.mp hin
        exact hnokw k hk hkeq
    exact List.mem_map_of_mem (fun kv => kv.2) (assocGet_mem hget)
  · intro k hk s hs hik
    have hget : assocGet k.chunk.id
        (semanticFold (keywordSeed (keywordSearch idx q filters))
          (semanticSearch idx qe cosine filters)) = some (mergeBoost k s) := by
      rw [semanticFold_assocGet (semanticSearch idx qe cosine filters) _ _ hsemnd]
      have hfind : (semanticSearch idx qe cosine filters).find?
          (fun x => x.chunk.id = k.chunk.id) = some s := by
        rw [hik]
        exact find?_self_of_nodup (semanticSearch idx qe cosine filters) hs hsemnd
      rw [hfind, hseed]
      rw [assocGet_mapPair_of_mem (keywordSearch idx q filters) hk hkwnd]
    exact List.mem_map_of_mem (fun kv => kv.2) (assocGet_mem hget)

/-- Witness for C5 at the concrete index: the keyword result at 6/10 and
the semantic result at 2/5 merge to the summed score with joined
reasons. -/
theorem c5_hybrid_amended_witness :
    ({ chunk := kResC5.chunk, score := kResC5.score + sResC5.score,
       match_reason := kResC5.match_reason ++ strOf " + " ++ sResC5.match_reason } :
        SearchResult) ∈
      semanticSearchWithKeyword idxJwtC5 (strOf "jwt") (some [1]) (fun _ _ => 2/5) none :=
  (c5_hybrid_amended idxJwtC5 (strOf "jwt") (some [1]) (fun _ _ => 2/5) none
    (by decide) (by decide)).2.2.1 kResC5 (by decide) sResC5 (by decide) (by decide)

/-
C10: silent degradation of semantic mode.
-/

theorem mergeResultMaps_nil_sem (kw : List SearchResult)
    (hnd : (kw.map (fun r => r.chunk.id)).Nodup) : mergeResultMaps kw [] = kw := by
  unfold mergeResultMaps semanticFold
  simp only [List.foldl_nil]
  rw [show keywordSeed kw = kw.map (fun r => (r.chunk.id, r)) from by
    have := keywordSeed_eq kw [] (fun r _ => rfl) hnd
    simpa [keywordSeed] using this]
  rw [List.map_map]
  exact List.map_id kw

/-- Two distinct chunks sharing one identifier, and an index holding both:
representable, though outside the documented uniqueness invariant. -/
def chDup1 : DocChunk := { chJwtC5 with content := strOf "uses JWT one" }

def chDup2 : DocChunk := { chJwtC5 with content := strOf "uses JWT two" }

def idxDupC10 : DocIndex :=
  { chunks := [(strOf "f", [chDup1, chDup2])]
    embeddings := []
    metadata := { version := INDEX_VERSION, indexedAt := 0, fileCount := 1, chunkCount := 2 } }

/-- C10 counterexample: on an index with two distinct chunks sharing one
identifier, semantic mode with no available query embedding does not return
exactly the exact-search results sorted and truncated: the identifier-keyed
merge map collapses the two keyword results into one, so the claim fails
for an arbitrary index even though semanticSearch itself returns the empty
list. -/
theorem c10_counterexample :
    semanticSearch idxDupC10 none (fun _ _ => 0) none = [] ∧
    searchDocumentation idxDupC10 (strOf "jwt") SearchMode.semantic none 10 none
        (fun _ _ => 0) (fun _ _ _ => []) ≠
      (jsSortByScoreDesc (keywordSearch idxDupC10 (strOf "jwt") none)).take 10 ∧
    searchDocumentation idxDupC10 (strOf "jwt") SearchMode.semantic none 10 none
        (fun _ _ => 0) (fun _ _ _ => []) ≠
      searchDocumentation idxDupC10 (strOf "jwt") SearchMode.exact none 10 none
        (fun _ _ => 0) (fun _ _ _ => []) := by
  refine ⟨rfl, by decide, by decide⟩

/-- C10 (amended): provided the chunk identifiers of the index are pairwise
distinct (the documented invariant), semantic-mode search degrades silently
when no query embedding can be produced: semanticSearch returns the empty
list rather than raising, and searchDocumentation in semantic mode returns
exactly the exact-search results, sorted descending by score and truncated
to the limit — identical to exact mode — with no error surfaced. -/
theorem c10_semantic_degrades_amended (idx : DocIndex) (q : Str)
    (filters : Option SearchFilters) (lim : Nat) (cosine : List ℚ → List ℚ → ℚ)
    (fuzzy : DocIndex → Str → Option SearchFilters → List SearchResult)
    (hc : ((allChunks idx).map (fun c => c.id)).Nodup) :
    semanticSearch idx none cosine filters = [] ∧
    searchDocumentation idx q SearchMode.semantic filters lim none cosine fuzzy =
      (jsSortByScoreDesc (keywordSearch idx q filters)).take lim ∧
    searchDocumentation idx q SearchMode.semantic filters lim none cosine fuzzy =
      searchDocumentation idx q SearchMode.exact filters lim none cosine fuzzy := by
  have hkwnd := keywordSearch_ids_nodup idx q filters hc
  have hmain : semanticSearchWithKeyword idx q none cosine filters =
      keywordSearch idx q filters := by
    unfold semanticSearchWithKeyword
    rw [show semanticSearch idx none cosine filters = [] from rfl]
    exact mergeResultMaps_nil_sem _ hkwnd
  refine ⟨rfl, ?_, ?_⟩
  · show (jsSortByScoreDesc (semanticSearchWithKeyword idx q none cosine filters)).take lim = _
    rw [hmain]
  · show (jsSortByScoreDesc (semanticSearchWithKeyword idx q none cosine filters)).take lim =
      (jsSortByScoreDesc (keywordSearch idx q filters)).take lim
    rw [hmain]

/-- Witness for C10 at a concrete index with distinct identifiers. -/
theorem c10_semantic_degrades_amended_witness :
    searchDocumentation idxJwtC5 (strOf "jwt") SearchMode.semantic none 10 none
        (fun _ _ => 0) (fun _ _ _ => []) =
      (jsSortByScoreDesc (keywordSearch idxJwtC5 (strOf "jwt") none)).take 10 :=
  (c10_semantic_degrades_amended idxJwtC5 (strOf "jwt") none 10 (fun _ _ => 0)
    (fun _ _ _ => []) (by decide)).2.1

/-
C9: chunk identifier uniqueness.
-/

/-- C9: the identifier of every chunk is the deterministic string built
from the file path and the start line, never random — but uniqueness fails:
running the real pipeline (parseRST, then the merge pass, then the split
pass, exactly as processFile does for an .rst file with heading-based
splitting enabled) over rstDupDoc produces three chunks whose identifier
list contains the identifier f:4 twice. The same collision occurs under
DEFAULT_CHUNKING_CONFIG for the analogous document whose first paragraph
has 2000 characters. This contradicts the documented invariant in types.ts
(id: Unique chunk identifier) and the spec. -/
theorem c9_duplicate_ids :
    docChunkIds (strOf "f") (assembleChunks (parseRST rstDupDoc) smallConfig) =
      [strOf "f:0", strOf "f:4", strOf "f:4"] ∧
    ¬ (docChunkIds (strOf "f") (assembleChunks (parseRST rstDupDoc) smallConfig)).Nodup ∧
    smallConfig.minTokens ≤ smallConfig.maxTokens := by
  refine ⟨by decide, ?_, by decide⟩
  intro hnd
  rw [show docChunkIds (strOf "f") (assembleChunks (parseRST rstDupDoc) smallConfig) =
      [strOf "f:0", strOf "f:4", strOf "f:4"] from by decide] at hnd
  exact absurd hnd (by decide)

end CCDocIdx
